import Mathlib

set_option autoImplicit false
set_option maxRecDepth 100000

/-!
Verification development for the BoincHub account-manager protocol engine.

The definitions below are a shallow embedding of the Python sources:

* `backend/boinchub/services/boinc_service.py` — the reconciliation engine
  (`BoincService._process_projects`, `create_attach_account`,
  `create_detach_account`, `attachment_settings_changed`,
  `parse_client_version`),
* `backend/boinchub/core/security.py` — `hash_boinc_password`,
* `src/boinchub/core/encryption.py` — `AccountKeyEncryption`,
* `backend/boinchub/core/xmlrpc.py` — the `BoolAsInt` reply serialization
  convention (together with the `exclude_none=True` rendering at
  `backend/boinchub/api/endpoints/rpc.py`).

Database reads performed at the top of `_process_projects`
(`get_enabled`, `get_by_user`, `get_by_computer`) are the storage boundary:
the engine is embedded as a pure function over the already-loaded rows,
exactly the local maps the Python function builds from those reads.
Deletions (`attachment_service.delete`) become an explicit output list of
attachment ids.  The lazy ORM traversal `attachment.project` becomes an
explicit lookup in the loaded project table; a failed lookup makes the
engine return `Except.error`, mirroring the `AttributeError` the Python
expression `create_detach_account(None)` would raise.
-/

namespace BoincHub

/-- Row of the `projects` table (`models/project.py`): id, name, url,
signed_url and the `enabled` flag (description/admin_notes and timestamps
are never read by the engine and are omitted). -/
structure Project where
  id : Nat
  name : String
  url : String
  signedUrl : String
  enabled : Bool
deriving DecidableEq, Repr

/-- Row of `user_project_keys` (`models/user_project_key.py`) as the engine
sees it: `account_key` is the plaintext produced by the
`EncryptedAccountKey` column type on load (decryption failures already
collapsed to `""`). -/
structure UserProjectKey where
  projectId : Nat
  accountKey : String
deriving DecidableEq, Repr

/-- Row of `project_attachments` (`models/project_attachment.py`); the
`resource_share` column is `Decimal(18,6)`, embedded as `Rat` (decimal
values are rationals and the engine only compares them for equality). -/
structure ProjectAttachment where
  id : Nat
  projectId : Nat
  resourceShare : Rat
  suspended : Bool
  dontRequestMoreWork : Bool
  detachWhenDone : Bool
  noCpu : Bool
  noGpuNvidia : Bool
  noGpuAmd : Bool
  noGpuIntel : Bool
deriving DecidableEq, Repr

/-- One `<project>` block of the client request (`core/xmlrpc.py`,
class `Project`), restricted to the fields `_process_projects` and
`attachment_settings_changed` read.  `account_key` is declared
`str | None = element(default=None)` in the source, hence `Option String`. -/
structure XmlProject where
  url : String
  suspendedViaGui : Bool
  dontRequestMoreWork : Bool
  detachWhenDone : Bool
  resourceShare : Rat
  accountKey : Option String
deriving DecidableEq, Repr

/-- A parsed client version.  `parse_client_version` delegates to the
external `packaging.version` library; BOINC clients report plain
`major.minor.patch` strings, for which that library's ordering is the
lexicographic order on the release triple embedded here.  A failed parse
is `none` at the use sites. -/
structure Version where
  major : Nat
  minor : Nat
  micro : Nat
deriving DecidableEq, Repr

/-- Lexicographic strict order on release triples, the comparison
`packaging.version` performs on plain `major.minor.patch` versions. -/
def Version.lt (a b : Version) : Bool :=
  if a.major < b.major then true
  else if b.major < a.major then false
  else if a.minor < b.minor then true
  else if b.minor < a.minor then false
  else decide (a.micro < b.micro)

/-- The `<account>` reply element (`core/xmlrpc.py`, class `Account`):
every optional field defaults to `None` (`element(default=None)`), the
`no_rsc` list defaults to empty, and `url`, `url_signature`,
`authenticator` are mandatory. -/
structure Account where
  url : String
  urlSignature : String
  update : Option Bool
  detach : Option Bool
  dontRequestMoreWork : Option Bool
  detachWhenDone : Option Bool
  suspend : Option Bool
  noCpu : Option Bool
  noCuda : Option Bool
  noAti : Option Bool
  noRsc : List String
  abortNotStarted : Option Bool
  authenticator : String
  resourceShare : Option Rat
deriving DecidableEq, Repr

/-- The rows `_process_projects` works over after its initial loads: the
project table, the requesting user's keys (`get_by_user`), the client's
reported project blocks (`request.projects`) and the parsed client
version. -/
structure ReconcileEnv where
  projects : List Project
  keys : List UserProjectKey
  clientProjects : List XmlProject
  clientVersion : Option Version

/-- The list `get_enabled(offset=0, limit=1000)` returns: the enabled rows
of the project table, capped at 1000. -/
def enabledProjects (projects : List Project) : List Project :=
  (projects.filter (fun p => p.enabled)).take 1000

/-- Lookup in the Python dict `enabled_project_map = {p.id: p for p in
enabled_projects}`: on duplicate keys a dict comprehension keeps the last
entry, hence the `reverse`. -/
def enabledProjectGet (projects : List Project) (pid : Nat) : Option Project :=
  (enabledProjects projects).reverse.find? (fun p => p.id == pid)

/-- Lookup in `key_map = {key.project_id: key for key in keys}`. -/
def keyGet (keys : List UserProjectKey) (pid : Nat) : Option UserProjectKey :=
  keys.reverse.find? (fun k => k.projectId == pid)

/-- Lookup in `client_projects = {p.url: p for p in request.projects}`. -/
def clientProjectGet (cps : List XmlProject) (url : String) : Option XmlProject :=
  cps.reverse.find? (fun cp => cp.url == url)

/-- The lazy ORM relationship `attachment.project`: a primary-key lookup in
the project table, `none` when the row no longer exists. -/
def ormProject (projects : List Project) (pid : Nat) : Option Project :=
  projects.find? (fun p => p.id == pid)

/-- `create_detach_account` (boinc_service.py lines 332-347): an account
carrying the project URL, its signature, an empty authenticator and the
detach flag; every other field keeps its `None`/empty default.  The
annotated return type is `Account | None` but the body always returns an
account, hence `some`. -/
def create_detach_account (project : Project) : Option Account :=
  some
    { url := project.url
      urlSignature := project.signedUrl
      update := none
      detach := some true
      dontRequestMoreWork := none
      detachWhenDone := none
      suspend := none
      noCpu := none
      noCuda := none
      noAti := none
      noRsc := []
      abortNotStarted := none
      authenticator := ""
      resourceShare := none }

/-- `create_attach_account` (boinc_service.py lines 270-329).  Returns
`none` exactly when the key is weak (contains an underscore) and the
client version is unparsed or strictly below 6.13.0; otherwise builds the
account, encodes resource exclusions as the `no_rsc` list for clients at or
above 7.0.0 and as individual boolean flags otherwise, and sets the
suspend / dont_request_more_work / detach_when_done flags from the
attachment. -/
def create_attach_account (project : Project) (userKey : UserProjectKey)
    (attachment : ProjectAttachment) (clientVersion : Option Version) : Option Account :=
  let accountKey := userKey.accountKey
  let isWeakAccountKey := accountKey.data.contains '_'
  if isWeakAccountKey &&
      (match clientVersion with
       | none => true
       | some v => Version.lt v ⟨6, 13, 0⟩) then
    none
  else
    let account : Account :=
      { url := project.url
        urlSignature := project.signedUrl
        update := none
        detach := none
        dontRequestMoreWork := none
        detachWhenDone := none
        suspend := none
        noCpu := none
        noCuda := none
        noAti := none
        noRsc := []
        abortNotStarted := none
        authenticator := accountKey
        resourceShare := some attachment.resourceShare }
    let account :=
      match clientVersion with
      | some v =>
        if !Version.lt v ⟨7, 0, 0⟩ then
          let restrictions : List String :=
            (if attachment.noCpu then ["CPU"] else []) ++
            (if attachment.noGpuNvidia then ["NVIDIA"] else []) ++
            (if attachment.noGpuAmd then ["ATI"] else []) ++
            (if attachment.noGpuIntel then ["intel_gpu"] else [])
          if restrictions.length > 0 then { account with noRsc := restrictions } else account
        else
          { account with
              noCpu := if attachment.noCpu then some true else account.noCpu
              noCuda := if attachment.noGpuNvidia then some true else account.noCuda
              noAti := if attachment.noGpuAmd then some true else account.noAti }
      | none =>
        { account with
            noCpu := if attachment.noCpu then some true else account.noCpu
            noCuda := if attachment.noGpuNvidia then some true else account.noCuda
            noAti := if attachment.noGpuAmd then some true else account.noAti }
    some
      { account with
          suspend := some attachment.suspended
          dontRequestMoreWork := some attachment.dontRequestMoreWork
          detachWhenDone := some attachment.detachWhenDone }

/-- `attachment_settings_changed` (boinc_service.py lines 221-244): the
first comparison pits the stored plaintext key (a `str`) against the
client-reported `account_key` (a `str | None`), so a client that reported
no key always differs. -/
def attachment_settings_changed (key : UserProjectKey) (attachment : ProjectAttachment)
    (clientProject : XmlProject) : Bool :=
  if some key.accountKey ≠ clientProject.accountKey then true
  else if attachment.resourceShare ≠ clientProject.resourceShare then true
  else if attachment.suspended ≠ clientProject.suspendedViaGui then true
  else if attachment.dontRequestMoreWork ≠ clientProject.dontRequestMoreWork then true
  else decide (attachment.detachWhenDone ≠ clientProject.detachWhenDone)

/-- Body of the `for attachment in current_attachments` loop of
`_process_projects` (boinc_service.py lines 160-216) for one attachment:
the accounts it appends and the attachment ids it deletes.  The
disabled/deleted-project branch dereferences `attachment.project`; when
that row is gone the Python raises (`None.url`), embedded as `.error`. -/
def processAttachment (env : ReconcileEnv) (a : ProjectAttachment) :
    Except String (List Account × List Nat) :=
  match enabledProjectGet env.projects a.projectId with
  | none =>
    match ormProject env.projects a.projectId with
    | none => .error "attachment.project row missing"
    | some p =>
      match create_detach_account p with
      | some account => .ok ([account], [a.id])
      | none => .ok ([], [])
  | some project =>
    match keyGet env.keys project.id with
    | none =>
      match create_detach_account project with
      | some account => .ok ([account], [a.id])
      | none => .ok ([], [])
    | some key =>
      match clientProjectGet env.clientProjects project.url with
      | none =>
        if a.detachWhenDone then
          .ok ([], [a.id])
        else
          match create_attach_account project key a env.clientVersion with
          | some account => .ok ([account], [])
          | none => .ok ([], [])
      | some clientProject =>
        if attachment_settings_changed key a clientProject then
          match create_attach_account project key a env.clientVersion with
          | some account =>
            let account :=
              if clientProject.accountKey == some account.authenticator then
                { account with authenticator := "" }
              else account
            .ok ([account], [])
          | none => .ok ([], [])
        else
          match create_attach_account project key a env.clientVersion with
          | some account =>
            let account :=
              if clientProject.accountKey == some account.authenticator then
                { account with authenticator := "" }
              else account
            .ok ([account], [])
          | none => .ok ([], [])

/-- `_process_projects` over the computer's current attachments, in order.
The earlier loop over `request.projects` (lines 152-158) builds a detach
account into a local variable that is never appended to `accounts` (and
its membership test compares a URL string against a map keyed by project
ids), so it contributes nothing to the reply and nothing to the deletions;
the embedding therefore starts at the attachments loop.  An exception in
any iteration aborts the whole computation, as in the Python. -/
def process_projects (env : ReconcileEnv) :
    List ProjectAttachment → Except String (List Account × List Nat)
  | [] => .ok ([], [])
  | a :: rest =>
    match processAttachment env a with
    | .error e => .error e
    | .ok ra =>
      match process_projects env rest with
      | .error e => .error e
      | .ok rr => .ok (ra.1 ++ rr.1, ra.2 ++ rr.2)

/-! ### Credential subsystem: `hash_boinc_password` (core/security.py)

`hash_boinc_password` delegates to `hashlib.md5(...).hexdigest()` and
`str.encode()`.  MD5 and UTF-8 encoding are implemented here concretely
(RFC 1321 / standard UTF-8), so the digest is computed for real; 32-bit
machine arithmetic is `Nat` with explicit `% 4294967296`. -/

/-- Mask to 32 bits. -/
def w32 (n : Nat) : Nat := n % 4294967296

/-- 32-bit bitwise complement (valid for inputs below `2 ^ 32`). -/
def not32 (n : Nat) : Nat := Nat.xor n 4294967295

/-- 32-bit left rotation (valid for inputs below `2 ^ 32`). -/
def rotl32 (x s : Nat) : Nat := w32 (x * 2 ^ s) + x / 2 ^ (32 - s)

/-- MD5 round function F. -/
def md5F (b c d : Nat) : Nat := Nat.lor (Nat.land b c) (Nat.land (not32 b) d)

/-- MD5 round function G. -/
def md5G (b c d : Nat) : Nat := Nat.lor (Nat.land d b) (Nat.land (not32 d) c)

/-- MD5 round function H. -/
def md5H (b c d : Nat) : Nat := Nat.xor b (Nat.xor c d)

/-- MD5 round function I. -/
def md5I (b c d : Nat) : Nat := Nat.xor c (Nat.lor b (not32 d))

/-- The 64 MD5 sine-derived constants. -/
def md5K : List Nat :=
  [0xd76aa478, 0xe8c7b756, 0x242070db, 0xc1bdceee,
   0xf57c0faf, 0x4787c62a, 0xa8304613, 0xfd469501,
   0x698098d8, 0x8b44f7af, 0xffff5bb1, 0x895cd7be,
   0x6b901122, 0xfd987193, 0xa679438e, 0x49b40821,
   0xf61e2562, 0xc040b340, 0x265e5a51, 0xe9b6c7aa,
   0xd62f105d, 0x02441453, 0xd8a1e681, 0xe7d3fbc8,
   0x21e1cde6, 0xc33707d6, 0xf4d50d87, 0x455a14ed,
   0xa9e3e905, 0xfcefa3f8, 0x676f02d9, 0x8d2a4c8a,
   0xfffa3942, 0x8771f681, 0x6d9d6122, 0xfde5380c,
   0xa4beea44, 0x4bdecfa9, 0xf6bb4b60, 0xbebfbc70,
   0x289b7ec6, 0xeaa127fa, 0xd4ef3085, 0x04881d05,
   0xd9d4d039, 0xe6db99e5, 0x1fa27cf8, 0xc4ac5665,
   0xf4292244, 0x432aff97, 0xab9423a7, 0xfc93a039,
   0x655b59c3, 0x8f0ccc92, 0xffeff47d, 0x85845dd1,
   0x6fa87e4f, 0xfe2ce6e0, 0xa3014314, 0x4e0811a1,
   0xf7537e82, 0xbd3af235, 0x2ad7d2bb, 0xeb86d391]

/-- The 64 MD5 per-step rotation amounts. -/
def md5S : List Nat :=
  [7, 12, 17, 22, 7, 12, 17, 22, 7, 12, 17, 22, 7, 12, 17, 22,
   5, 9, 14, 20, 5, 9, 14, 20, 5, 9, 14, 20, 5, 9, 14, 20,
   4, 11, 16, 23, 4, 11, 16, 23, 4, 11, 16, 23, 4, 11, 16, 23,
   6, 10, 15, 21, 6, 10, 15, 21, 6, 10, 15, 21, 6, 10, 15, 21]

/-- Little-endian byte rendering of `n`, `k` bytes wide. -/
def leBytes (k n : Nat) : List Nat :=
  (List.range k).map (fun i => n / 2 ^ (8 * i) % 256)

/-- The `j`-th little-endian 32-bit word of a 64-byte block. -/
def md5WordAt (block : List Nat) (j : Nat) : Nat :=
  block.getD (4 * j) 0 + block.getD (4 * j + 1) 0 * 256 +
    block.getD (4 * j + 2) 0 * 65536 + block.getD (4 * j + 3) 0 * 16777216

/-- One MD5 step (step index `i` from 0 to 63). -/
def md5Step (block : List Nat) (st : Nat × Nat × Nat × Nat) (i : Nat) :
    Nat × Nat × Nat × Nat :=
  let (a, b, c, d) := st
  let fg : Nat × Nat :=
    if i < 16 then (md5F b c d, i)
    else if i < 32 then (md5G b c d, (5 * i + 1) % 16)
    else if i < 48 then (md5H b c d, (3 * i + 5) % 16)
    else (md5I b c d, 7 * i % 16)
  let tmp := w32 (fg.1 + a + md5K.getD i 0 + md5WordAt block fg.2)
  (d, w32 (b + rotl32 tmp (md5S.getD i 0)), b, c)

/-- Process one 64-byte block. -/
def md5ProcessBlock (st : Nat × Nat × Nat × Nat) (block : List Nat) :
    Nat × Nat × Nat × Nat :=
  let r := (List.range 64).foldl (md5Step block) st
  (w32 (st.1 + r.1), w32 (st.2.1 + r.2.1), w32 (st.2.2.1 + r.2.2.1), w32 (st.2.2.2 + r.2.2.2))

/-- Split a byte list into 64-byte blocks; the fuel argument (any bound on
the number of blocks, here the list length) makes the recursion
structural so that the kernel can evaluate it. -/
def md5BlocksAux : Nat → List Nat → List (List Nat)
  | 0, _ => []
  | _, [] => []
  | fuel + 1, l => l.take 64 :: md5BlocksAux fuel (l.drop 64)

/-- Split a byte list into 64-byte blocks. -/
def md5Blocks (l : List Nat) : List (List Nat) := md5BlocksAux l.length l

/-- MD5 of a byte string: pad, process blocks, serialize the state
little-endian — 16 output bytes. -/
def md5Digest (msg : List Nat) : List Nat :=
  let padded :=
    msg ++ 128 :: List.replicate ((119 - msg.length % 64) % 64) 0 ++ leBytes 8 (8 * msg.length)
  let r := (md5Blocks padded).foldl md5ProcessBlock (0x67452301, 0xefcdab89, 0x98badcfe, 0x10325476)
  leBytes 4 r.1 ++ leBytes 4 r.2.1 ++ leBytes 4 r.2.2.1 ++ leBytes 4 r.2.2.2

/-- Lowercase hexadecimal alphabet. -/
def hexChars : List Char := "0123456789abcdef".data

/-- Two lowercase hex characters for one byte. -/
def byteToHex (n : Nat) : List Char := [hexChars.getD (n / 16 % 16) '0', hexChars.getD (n % 16) '0']

/-- Lowercase hex rendering of a byte string (Python `hexdigest`). -/
def bytesToHex (bs : List Nat) : String :=
  String.mk (bs.foldr (fun b acc => byteToHex b ++ acc) [])

/-- Standard UTF-8 encoding of one character (Python `str.encode()`). -/
def utf8EncodeChar (c : Char) : List Nat :=
  let n := c.toNat
  if n < 128 then [n]
  else if n < 2048 then [192 + n / 64, 128 + n % 64]
  else if n < 65536 then [224 + n / 4096, 128 + n / 64 % 64, 128 + n % 64]
  else [240 + n / 262144, 128 + n / 4096 % 64, 128 + n / 64 % 64, 128 + n % 64]

/-- UTF-8 encoding of a string. -/
def utf8Encode (s : String) : List Nat :=
  s.data.foldr (fun c acc => utf8EncodeChar c ++ acc) []

/-- Lowercase-hex MD5 digest of a string's UTF-8 bytes:
`hashlib.md5(s.encode()).hexdigest()`. -/
def md5HexOfString (s : String) : String := bytesToHex (md5Digest (utf8Encode s))

/-- Python `str.lower()`, embedded as the character-wise ASCII case map
(`Char.toLower` agrees with Python's case folding on the ASCII range). -/
def pyLower (s : String) : String := String.mk (s.data.map Char.toLower)

/-- `hash_boinc_password` (core/security.py lines 64-75):
`hashlib.md5(f"{password}{username.lower()}".encode()).hexdigest()`. -/
def hash_boinc_password (username password : String) : String :=
  md5HexOfString (password ++ pyLower username)

/-! ### Credential subsystem: account-key encryption (src/boinchub/core/encryption.py)

`AccountKeyEncryption` wraps the external `cryptography.fernet.Fernet`
primitive (keyed by the derived master key) between Python's base64 and
UTF-8 codecs.  The Fernet primitive is the external boundary, embedded as
an explicit parameter: `encrypt` maps plaintext bytes to token bytes and
`decrypt` returns `none` where the library raises `InvalidToken`.  The
base64 and UTF-8 codecs are implemented concretely below. -/

/-- The external Fernet primitive: `encrypt` models
`Fernet.encrypt`, `decrypt` models `Fernet.decrypt` with the
`InvalidToken` failure as `none`. -/
structure FernetLike where
  encrypt : List Nat → List Nat
  decrypt : List Nat → Option (List Nat)

/-- URL-safe base64 alphabet (`base64.urlsafe_b64encode`). -/
def b64Alphabet : List Char :=
  "ABCDEFGHIJKLMNOPQRSTUVWXYZabcdefghijklmnopqrstuvwxyz0123456789-_".data

/-- Character for a 6-bit group. -/
def b64Ch (i : Nat) : Char := b64Alphabet.getD i '?'

/-- URL-safe base64 encoding with padding. -/
def b64Encode : List Nat → List Char
  | [] => []
  | [a] => [b64Ch (a / 4), b64Ch (a % 4 * 16), '=', '=']
  | [a, b] => [b64Ch (a / 4), b64Ch (a % 4 * 16 + b / 16), b64Ch (b % 16 * 4), '=']
  | a :: b :: c :: rest =>
    b64Ch (a / 4) :: b64Ch (a % 4 * 16 + b / 16) :: b64Ch (b % 16 * 4 + c / 64) ::
      b64Ch (c % 64) :: b64Encode rest

/-- Index of a character in the base64 alphabet. -/
def b64CharIndex (c : Char) : Option Nat := b64Alphabet.indexOf? c

/-- URL-safe base64 decoding (`base64.urlsafe_b64decode`); `none` models
the `binascii.Error` raised on malformed input, which the caller's
`try/except` turns into the empty-string result. -/
def b64Decode : List Char → Option (List Nat)
  | [] => some []
  | c1 :: c2 :: c3 :: c4 :: rest => do
    let i1 ← b64CharIndex c1
    let i2 ← b64CharIndex c2
    if c3 = '=' then
      if c4 = '=' ∧ rest = [] then
        some [i1 * 4 + i2 / 16]
      else
        none
    else do
      let i3 ← b64CharIndex c3
      if c4 = '=' then
        if rest = [] then
          some [i1 * 4 + i2 / 16, i2 % 16 * 16 + i3 / 4]
        else
          none
      else do
        let i4 ← b64CharIndex c4
        let restBytes ← b64Decode rest
        some ((i1 * 4 + i2 / 16) :: (i2 % 16 * 16 + i3 / 4) :: (i3 % 4 * 64 + i4) :: restBytes)
  | _ => none

/-- Standard UTF-8 decoding, one code point per unit of fuel (any bound on
the number of characters, such as the byte count, suffices); structural in
the fuel so that the kernel can evaluate it. -/
def utf8DecodeAux : Nat → List Nat → Option (List Char)
  | _, [] => some []
  | 0, _ :: _ => none
  | fuel + 1, b0 :: rest =>
    if b0 < 128 then
      (utf8DecodeAux fuel rest).map (fun cs => Char.ofNat b0 :: cs)
    else if b0 < 192 then none
    else if b0 < 224 then
      match rest with
      | b1 :: rest2 =>
        if 128 ≤ b1 ∧ b1 < 192 then
          (utf8DecodeAux fuel rest2).map (fun cs => Char.ofNat ((b0 - 192) * 64 + (b1 - 128)) :: cs)
        else none
      | [] => none
    else if b0 < 240 then
      match rest with
      | b1 :: b2 :: rest2 =>
        if (128 ≤ b1 ∧ b1 < 192) ∧ (128 ≤ b2 ∧ b2 < 192) then
          (utf8DecodeAux fuel rest2).map
            (fun cs => Char.ofNat ((b0 - 224) * 4096 + (b1 - 128) * 64 + (b2 - 128)) :: cs)
        else none
      | _ => none
    else if b0 < 248 then
      match rest with
      | b1 :: b2 :: b3 :: rest2 =>
        if (128 ≤ b1 ∧ b1 < 192) ∧ (128 ≤ b2 ∧ b2 < 192) ∧ (128 ≤ b3 ∧ b3 < 192) then
          (utf8DecodeAux fuel rest2).map
            (fun cs =>
              Char.ofNat ((b0 - 240) * 262144 + (b1 - 128) * 4096 + (b2 - 128) * 64 + (b3 - 128)) :: cs)
        else none
      | _ => none
    else none

/-- Standard UTF-8 decoding (Python `bytes.decode()`); `none` models the
`UnicodeDecodeError` the caller's `try/except` absorbs. -/
def utf8Decode (bs : List Nat) : Option (List Char) := utf8DecodeAux bs.length bs

/-- `AccountKeyEncryption.encrypt_account_key` (encryption.py lines 38-53):
empty plaintext is returned unchanged; otherwise the plaintext's UTF-8
bytes are Fernet-encrypted and the token is base64-encoded. -/
def encrypt_account_key (F : FernetLike) (plaintextKey : String) : String :=
  if plaintextKey = "" then ""
  else String.mk (b64Encode (F.encrypt (utf8Encode plaintextKey)))

/-- `AccountKeyEncryption.decrypt_account_key` (encryption.py lines 55-74):
empty input is returned unchanged; otherwise base64-decode, Fernet-decrypt
and UTF-8-decode, with any failure in that chain caught by the
`try/except` and collapsed to the empty string.  The function is total:
no exception escapes to the caller. -/
def decrypt_account_key (F : FernetLike) (encryptedKey : String) : String :=
  if encryptedKey = "" then ""
  else
    match b64Decode encryptedKey.data with
    | none => ""
    | some encryptedBytes =>
      match F.decrypt encryptedBytes with
      | none => ""
      | some decrypted =>
        match utf8Decode decrypted with
        | none => ""
        | some cs => String.mk cs

/-- The decryption chain without the fail-closed wrapper: a string is a
valid ciphertext under `F` exactly when this is `some`. -/
def decryptChain (F : FernetLike) (encryptedKey : String) : Option String :=
  (b64Decode encryptedKey.data).bind fun encryptedBytes =>
    (F.decrypt encryptedBytes).bind fun decrypted =>
      (utf8Decode decrypted).map fun cs => String.mk cs

/-! ### Wire codec: boolean reply fields (core/xmlrpc.py, rpc.py)

`BoolAsInt = Annotated[bool, PlainSerializer(lambda x: 1 if x else 0)]`
and the reply is rendered with `exclude_none=True`
(`reply.to_xml(..., exclude_none=True)` in rpc.py), so an optional
boolean element is omitted exactly when its value is `None` and otherwise
contains the serializer's integer. -/

/-- The `PlainSerializer` lambda of `BoolAsInt`. -/
def boolAsInt (b : Bool) : Nat := if b then 1 else 0

/-- Rendering of one `BoolAsInt | None` reply element under
`exclude_none=True`: `none` produces no element, `some b` produces the
element containing `boolAsInt b`. -/
def renderOptBoolElement (tag : String) : Option Bool → Option String
  | none => none
  | some b => some ("<" ++ tag ++ ">" ++ toString (boolAsInt b) ++ "</" ++ tag ++ ">")

/-- A concrete instance of the external Fernet primitive (prepends a
marker byte), used to instantiate the round-trip theorem. -/
def fernetSample : FernetLike :=
  { encrypt := fun m => 0 :: m
    decrypt := fun bs =>
      match bs with
      | [] => none
      | _ :: r => some r }

/-- A concrete Fernet instance that rejects every token, as decryption
under a foreign master key does. -/
def fernetRejectAll : FernetLike :=
  { encrypt := fun m => m
    decrypt := fun _ => none }

/-- Decidable equality for `Except`, so that concrete engine runs can be
checked by `decide`. -/
instance instDecEqExcept {ε α : Type} [DecidableEq ε] [DecidableEq α] :
    DecidableEq (Except ε α) := fun x y =>
  match x, y with
  | .ok a, .ok b =>
    match decEq a b with
    | isTrue h => isTrue (by rw [h])
    | isFalse h => isFalse (fun hc => by cases hc; exact h rfl)
  | .error e, .error f =>
    match decEq e f with
    | isTrue h => isTrue (by rw [h])
    | isFalse h => isFalse (fun hc => by cases hc; exact h rfl)
  | .ok _, .error _ => isFalse (fun hc => by cases hc)
  | .error _, .ok _ => isFalse (fun hc => by cases hc)

/-! ## Concrete fixtures used to instantiate the theorems -/

/-- An enabled project. -/
def projAlpha : Project := ⟨1, "Alpha", "http://alpha.example/", "sig-alpha", true⟩

/-- The same project row with `enabled = false`. -/
def projAlphaDisabled : Project := ⟨1, "Alpha", "http://alpha.example/", "sig-alpha", false⟩

/-- An attachment of the computer to project 1. -/
def attOne : ProjectAttachment := ⟨10, 1, 100, false, false, false, false, false, false, false⟩

/-- An attachment whose `project_id` has no row in the project table. -/
def attVanished : ProjectAttachment := ⟨11, 99, 100, false, false, false, false, false, false, false⟩

/-- A client report of project 1 matching `attOne` and the key `keyA`. -/
def xmlAlpha : XmlProject := ⟨"http://alpha.example/", false, false, false, 100, some "keyA"⟩

/-- A client report of project 1 with an empty account key. -/
def xmlAlphaEmptyKey : XmlProject := ⟨"http://alpha.example/", false, false, false, 100, some ""⟩

/-- A client report of a URL the server has no project or attachment for. -/
def xmlGamma : XmlProject := ⟨"http://gamma.example/", false, false, false, 100, none⟩

/-- Environment where project 1 exists but is disabled. -/
def envDisabled : ReconcileEnv := ⟨[projAlphaDisabled], [], [], none⟩

/-- Environment where project 1 is enabled and the user's key record is
present but holds the empty string. -/
def envEmptyKey : ReconcileEnv := ⟨[projAlpha], [⟨1, ""⟩], [xmlAlphaEmptyKey], some ⟨7, 16, 3⟩⟩

/-- Environment where project 1 is enabled but the user has no key record. -/
def envNoKey : ReconcileEnv := ⟨[projAlpha], [], [], none⟩

/-- Environment with an enabled project, a normal key and a matching client
report; used together with `attVanished` for the vanished-row scenario. -/
def envHealthy : ReconcileEnv := ⟨[projAlpha], [⟨1, "keyA"⟩], [xmlAlpha], some ⟨7, 16, 3⟩⟩

/-- Environment where the user's key for project 1 is weak (contains an
underscore) and the client is older than 6.13.0. -/
def envWeakOld : ReconcileEnv := ⟨[projAlpha], [⟨1, "weak_key"⟩], [], some ⟨6, 12, 9⟩⟩

/-- Environment where the client additionally reports an unattached URL. -/
def envExtraUrl : ReconcileEnv := ⟨[projAlpha], [⟨1, "keyA"⟩], [xmlAlpha, xmlGamma], some ⟨7, 16, 3⟩⟩

/-! ## Helper lemmas about the reconciliation engine -/

/-- A disabled-but-present project: the attachment is classified into the
detach branch, the detach account is emitted and the attachment deleted. -/
theorem processAttachment_disabled (env : ReconcileEnv) (a : ProjectAttachment) (p : Project)
    (hdis : enabledProjectGet env.projects a.projectId = none)
    (hp : ormProject env.projects a.projectId = some p) :
    processAttachment env a =
      .ok ([⟨p.url, p.signedUrl, none, some true, none, none, none, none, none, none, [],
             none, "", none⟩], [a.id]) := by
  simp only [processAttachment, hdis, hp, create_detach_account]

/-- A missing key record: the attachment is classified into the second
detach branch. -/
theorem processAttachment_no_key (env : ReconcileEnv) (a : ProjectAttachment) (p : Project)
    (hen : enabledProjectGet env.projects a.projectId = some p)
    (hk : keyGet env.keys p.id = none) :
    processAttachment env a =
      .ok ([⟨p.url, p.signedUrl, none, some true, none, none, none, none, none, none, [],
             none, "", none⟩], [a.id]) := by
  simp only [processAttachment, hen, hk, create_detach_account]

/-- `processAttachment` can only fail on an attachment whose project row
has vanished; when the row is present it always succeeds. -/
theorem processAttachment_ok (env : ReconcileEnv) (a : ProjectAttachment)
    (h : (ormProject env.projects a.projectId).isSome) :
    ∃ r, processAttachment env a = .ok r := by
  cases hres : processAttachment env a with
  | ok r => exact ⟨r, rfl⟩
  | error e =>
    exfalso
    unfold processAttachment at hres
    cases hE : enabledProjectGet env.projects a.projectId with
    | none =>
      simp only [hE] at hres
      cases hO : ormProject env.projects a.projectId with
      | none => rw [hO] at h; simp at h
      | some p =>
        simp only [hO, create_detach_account] at hres
        exact Except.noConfusion hres
    | some project =>
      simp only [hE] at hres
      cases hK : keyGet env.keys project.id with
      | none =>
        simp only [hK, create_detach_account] at hres
        exact Except.noConfusion hres
      | some key =>
        simp only [hK] at hres
        cases hC : clientProjectGet env.clientProjects project.url with
        | none =>
          simp only [hC] at hres
          cases hd : a.detachWhenDone with
          | true =>
            simp only [hd, if_true] at hres
            exact Except.noConfusion hres
          | false =>
            simp only [hd, Bool.false_eq_true, if_false] at hres
            cases hA : create_attach_account project key a env.clientVersion with
            | none => simp only [hA] at hres; exact Except.noConfusion hres
            | some acct => simp only [hA] at hres; exact Except.noConfusion hres
        | some cp =>
          simp only [hC] at hres
          cases hch : attachment_settings_changed key a cp with
          | true =>
            simp only [hch, if_true] at hres
            cases hA : create_attach_account project key a env.clientVersion with
            | none => simp only [hA] at hres; exact Except.noConfusion hres
            | some acct => simp only [hA] at hres; exact Except.noConfusion hres
          | false =>
            simp only [hch, Bool.false_eq_true, if_false] at hres
            cases hA : create_attach_account project key a env.clientVersion with
            | none => simp only [hA] at hres; exact Except.noConfusion hres
            | some acct => simp only [hA] at hres; exact Except.noConfusion hres

/-- When every attachment's project row is present the whole loop
succeeds. -/
theorem process_projects_ok (env : ReconcileEnv) (atts : List ProjectAttachment)
    (h : ∀ b ∈ atts, (ormProject env.projects b.projectId).isSome) :
    ∃ r, process_projects env atts = .ok r := by
  induction atts with
  | nil => exact ⟨([], []), rfl⟩
  | cons b rest ih =>
    obtain ⟨rb, hb⟩ := processAttachment_ok env b (h b (List.mem_cons_self b rest))
    obtain ⟨rr, hr⟩ := ih (fun x hx => h x (List.mem_cons_of_mem b hx))
    refine ⟨(rb.1 ++ rr.1, rb.2 ++ rr.2), ?_⟩
    unfold process_projects
    simp only [hb, hr]

/-- Whatever one attachment contributes is contained in the whole run's
output. -/
theorem process_projects_contrib (env : ReconcileEnv) (atts : List ProjectAttachment)
    (a : ProjectAttachment) (accs : List Account) (dels : List Nat)
    (aa : List Account) (da : List Nat)
    (ha : a ∈ atts)
    (h : process_projects env atts = .ok (accs, dels))
    (hA : processAttachment env a = .ok (aa, da)) :
    (∀ x ∈ aa, x ∈ accs) ∧ (∀ d ∈ da, d ∈ dels) := by
  induction atts generalizing accs dels with
  | nil => cases ha
  | cons b rest ih =>
    unfold process_projects at h
    cases hB : processAttachment env b with
    | error e => simp only [hB] at h; exact Except.noConfusion h
    | ok rb =>
      simp only [hB] at h
      cases hR : process_projects env rest with
      | error e => simp only [hR] at h; exact Except.noConfusion h
      | ok rr =>
        simp only [hR] at h
        obtain ⟨haccs, hdels⟩ : rb.1 ++ rr.1 = accs ∧ rb.2 ++ rr.2 = dels := by
          cases h; exact ⟨rfl, rfl⟩
        subst haccs hdels
        rcases List.mem_cons.mp ha with rfl | hmem
        · rw [hB] at hA
          obtain ⟨h1, h2⟩ : rb.1 = aa ∧ rb.2 = da := by cases hA; exact ⟨rfl, rfl⟩
          subst h1 h2
          exact ⟨fun x hx => List.mem_append_left _ hx, fun d hd => List.mem_append_left _ hd⟩
        · obtain ⟨h1, h2⟩ := ih rr.1 rr.2 hmem hR
          exact ⟨fun x hx => List.mem_append_right _ (h1 x hx),
                 fun d hd => List.mem_append_right _ (h2 d hd)⟩

/-- Splitting the attachment loop over a concatenation. -/
theorem process_projects_append (env : ReconcileEnv) (l1 l2 : List ProjectAttachment) :
    process_projects env (l1 ++ l2) =
      match process_projects env l1 with
      | .error e => .error e
      | .ok r1 =>
        match process_projects env l2 with
        | .error e => .error e
        | .ok r2 => .ok (r1.1 ++ r2.1, r1.2 ++ r2.2) := by
  induction l1 with
  | nil =>
    simp only [List.nil_append, process_projects]
    cases h2 : process_projects env l2 with
    | error e => rfl
    | ok r2 => simp
  | cons a l1 ih =>
    simp only [List.cons_append, process_projects]
    cases hA : processAttachment env a with
    | error e => rfl
    | ok ra =>
      simp only [List.append_eq]
      rw [ih]
      cases h1 : process_projects env l1 with
      | error e => rfl
      | ok r1 =>
        cases h2 : process_projects env l2 with
        | error e => rfl
        | ok r2 => simp [List.append_assoc]

/-- The weak-key gate of `create_attach_account`: an underscore in the key
together with an unparsed or pre-6.13 client version yields no account. -/
theorem create_attach_account_weak_none (project : Project) (k : UserProjectKey)
    (x : ProjectAttachment) (cv : Option Version)
    (hweak : k.accountKey.data.contains '_' = true)
    (hver : cv = none ∨ ∃ v, cv = some v ∧ Version.lt v ⟨6, 13, 0⟩ = true) :
    create_attach_account project k x cv = none := by
  rcases hver with hcv | ⟨v, hcv, hlt⟩
  · simp only [create_attach_account, hcv, hweak, Bool.and_true, if_true]
  · simp only [create_attach_account, hcv, hweak, hlt, Bool.and_true, if_true]

/-- Injectivity of a successful pair result. -/
theorem exceptOk_pair_inj {alpha beta eps : Type} {x1 x2 : alpha} {y1 y2 : beta}
    (h : (Except.ok (x1, y1) : Except eps (alpha × beta)) = .ok (x2, y2)) :
    x1 = x2 ∧ y1 = y2 := by
  cases h; exact ⟨rfl, rfl⟩

/-- A successful lookup in the enabled-project map returns a row of the
project table, with the looked-up id. -/
theorem enabledProjectGet_mem (projects : List Project) (pid : Nat) (p : Project)
    (h : enabledProjectGet projects pid = some p) : p ∈ projects ∧ p.id = pid := by
  unfold enabledProjectGet enabledProjects at h
  have hm := List.mem_of_find?_eq_some h
  have hp := List.find?_some h
  refine ⟨?_, by simpa using hp⟩
  exact List.mem_of_mem_filter (List.take_subset _ _ (List.mem_reverse.mp hm))

/-- A successful ORM project lookup returns a row of the project table,
with the looked-up id. -/
theorem ormProject_mem (projects : List Project) (pid : Nat) (p : Project)
    (h : ormProject projects pid = some p) : p ∈ projects ∧ p.id = pid := by
  unfold ormProject at h
  exact ⟨List.mem_of_find?_eq_some h, by simpa using List.find?_some h⟩

/-- Every account built by `create_attach_account` carries the project's
URL and signed URL and leaves the detach flag unset. -/
theorem create_attach_account_fields (project : Project) (k : UserProjectKey)
    (x : ProjectAttachment) (cv : Option Version) (acct : Account)
    (h : create_attach_account project k x cv = some acct) :
    acct.url = project.url ∧ acct.urlSignature = project.signedUrl ∧ acct.detach = none := by
  unfold create_attach_account at h
  cases cv with
  | none =>
    cases hw : k.accountKey.data.contains '_' with
    | true =>
      simp [hw] at h
      exact absurd (by simpa using hw) (fun hmem => h.1 hmem)
    | false =>
      simp only [hw, Bool.false_and, Bool.false_eq_true, if_false] at h
      injection h with h
      subst h
      exact ⟨rfl, rfl, rfl⟩
  | some v =>
    cases hw : (k.accountKey.data.contains '_' && Version.lt v ⟨6, 13, 0⟩) with
    | true =>
      simp [hw] at h
      rw [Bool.and_eq_true] at hw
      obtain ⟨hc, hl⟩ := hw
      have hf := h.1 (by simpa using hc)
      rw [hf] at hl
      exact Bool.noConfusion hl
    | false =>
      simp only [hw, Bool.false_eq_true, if_false] at h
      injection h with h
      subst h
      refine ⟨?_, ?_, ?_⟩ <;> (repeat' split) <;> rfl

/-- Shape of one attachment's contribution: it deletes nothing or exactly
itself; a deleting classification emits nothing or a single account with
the detach flag set; a non-deleting classification emits only accounts
with the detach flag unset. -/
theorem processAttachment_shape (env : ReconcileEnv) (b : ProjectAttachment)
    (accs : List Account) (dels : List Nat)
    (h : processAttachment env b = .ok (accs, dels)) :
    (dels = [] ∨ dels = [b.id])
    ∧ (dels = [] → ∀ acct ∈ accs, acct.detach = none)
    ∧ (dels = [b.id] → (accs = [] ∨ ∃ acct, accs = [acct] ∧ acct.detach = some true)) := by
  unfold processAttachment at h
  cases hE : enabledProjectGet env.projects b.projectId with
  | none =>
    simp only [hE] at h
    cases hO : ormProject env.projects b.projectId with
    | none => simp only [hO] at h; exact Except.noConfusion h
    | some p =>
      simp only [hO, create_detach_account] at h
      obtain ⟨h1, h2⟩ := exceptOk_pair_inj h
      subst h1 h2
      exact ⟨Or.inr rfl, by simp, fun _ => Or.inr ⟨_, rfl, rfl⟩⟩
  | some project =>
    simp only [hE] at h
    cases hK : keyGet env.keys project.id with
    | none =>
      simp only [hK, create_detach_account] at h
      obtain ⟨h1, h2⟩ := exceptOk_pair_inj h
      subst h1 h2
      exact ⟨Or.inr rfl, by simp, fun _ => Or.inr ⟨_, rfl, rfl⟩⟩
    | some key =>
      simp only [hK] at h
      cases hC : clientProjectGet env.clientProjects project.url with
      | none =>
        simp only [hC] at h
        cases hd : b.detachWhenDone with
        | true =>
          simp only [hd, if_true] at h
          obtain ⟨h1, h2⟩ := exceptOk_pair_inj h
          subst h1 h2
          exact ⟨Or.inr rfl, by simp, fun _ => Or.inl rfl⟩
        | false =>
          simp only [hd, Bool.false_eq_true, if_false] at h
          cases hA : create_attach_account project key b env.clientVersion with
          | none =>
            simp only [hA] at h
            obtain ⟨h1, h2⟩ := exceptOk_pair_inj h
            subst h1 h2
            exact ⟨Or.inl rfl, by simp, by simp⟩
          | some acct =>
            simp only [hA] at h
            obtain ⟨h1, h2⟩ := exceptOk_pair_inj h
            subst h1 h2
            obtain ⟨-, -, hdet⟩ := create_attach_account_fields project key b env.clientVersion acct hA
            exact ⟨Or.inl rfl, by simp [hdet], by simp⟩
      | some cp =>
        simp only [hC] at h
        rw [ite_self] at h
        cases hA : create_attach_account project key b env.clientVersion with
        | none =>
          simp only [hA] at h
          obtain ⟨h1, h2⟩ := exceptOk_pair_inj h
          subst h1 h2
          exact ⟨Or.inl rfl, by simp, by simp⟩
        | some acct =>
          simp only [hA] at h
          obtain ⟨h1, h2⟩ := exceptOk_pair_inj h
          subst h1 h2
          obtain ⟨-, -, hdet⟩ :=
            create_attach_account_fields project key b env.clientVersion acct hA
          refine ⟨Or.inl rfl, ?_, by simp⟩
          intro _ a ha
          rcases List.mem_singleton.mp ha with rfl
          split <;> simp [hdet]

/-- Every deleted id in a run belongs to one of the processed
attachments. -/
theorem process_projects_dels (env : ReconcileEnv) (atts : List ProjectAttachment)
    (accs : List Account) (dels : List Nat)
    (h : process_projects env atts = .ok (accs, dels)) :
    ∀ d ∈ dels, ∃ b ∈ atts, d = b.id := by
  induction atts generalizing accs dels with
  | nil =>
    obtain ⟨h1, h2⟩ : ([] : List Account) = accs ∧ ([] : List Nat) = dels := by
      cases h; exact ⟨rfl, rfl⟩
    subst h1 h2
    simp
  | cons b rest ih =>
    unfold process_projects at h
    cases hB : processAttachment env b with
    | error e => simp only [hB] at h; exact Except.noConfusion h
    | ok rb =>
      simp only [hB] at h
      cases hR : process_projects env rest with
      | error e => simp only [hR] at h; exact Except.noConfusion h
      | ok rr =>
        simp only [hR] at h
        obtain ⟨h1, h2⟩ : rb.1 ++ rr.1 = accs ∧ rb.2 ++ rr.2 = dels := by
          cases h; exact ⟨rfl, rfl⟩
        subst h1 h2
        intro d hd
        rcases List.mem_append.mp hd with hd | hd
        · obtain ⟨hdel01, -, -⟩ := processAttachment_shape env b rb.1 rb.2 (by
            rw [hB])
          rcases hdel01 with h0 | h0
          · rw [h0] at hd; cases hd
          · rw [h0] at hd
            rcases List.mem_singleton.mp hd with rfl
            exact ⟨b, List.mem_cons_self b rest, rfl⟩
        · obtain ⟨x, hx, hxd⟩ := ih rr.1 rr.2 hR d hd
          exact ⟨x, List.mem_cons_of_mem b hx, hxd⟩

/-- Every account a run emits takes its URL from a project-table row whose
id is one of the processed attachments' project ids. -/
theorem process_projects_url (env : ReconcileEnv) (atts : List ProjectAttachment)
    (accs : List Account) (dels : List Nat)
    (h : process_projects env atts = .ok (accs, dels)) :
    ∀ acct ∈ accs, ∃ b ∈ atts, ∃ p, p ∈ env.projects ∧ p.id = b.projectId
      ∧ acct.url = p.url := by
  induction atts generalizing accs dels with
  | nil =>
    obtain ⟨h1, h2⟩ : ([] : List Account) = accs ∧ ([] : List Nat) = dels := by
      cases h; exact ⟨rfl, rfl⟩
    subst h1 h2
    simp
  | cons b rest ih =>
    unfold process_projects at h
    cases hB : processAttachment env b with
    | error e => simp only [hB] at h; exact Except.noConfusion h
    | ok rb =>
      simp only [hB] at h
      cases hR : process_projects env rest with
      | error e => simp only [hR] at h; exact Except.noConfusion h
      | ok rr =>
        simp only [hR] at h
        obtain ⟨h1, h2⟩ : rb.1 ++ rr.1 = accs ∧ rb.2 ++ rr.2 = dels := by
          cases h; exact ⟨rfl, rfl⟩
        subst h1 h2
        intro acct hacct
        rcases List.mem_append.mp hacct with hacct | hacct
        · refine ⟨b, List.mem_cons_self b rest, ?_⟩
          clear h ih
          unfold processAttachment at hB
          cases hE : enabledProjectGet env.projects b.projectId with
          | none =>
            simp only [hE] at hB
            cases hO : ormProject env.projects b.projectId with
            | none => simp only [hO] at hB; exact Except.noConfusion hB
            | some p =>
              simp only [hO, create_detach_account] at hB
              obtain ⟨g1, g2⟩ := exceptOk_pair_inj hB
              obtain ⟨hmem, hid⟩ := ormProject_mem env.projects b.projectId p hO
              rw [← g1] at hacct
              rcases List.mem_singleton.mp hacct with rfl
              exact ⟨p, hmem, hid, rfl⟩
          | some project =>
            simp only [hE] at hB
            obtain ⟨hmem, hid⟩ := enabledProjectGet_mem env.projects b.projectId project hE
            cases hK : keyGet env.keys project.id with
            | none =>
              simp only [hK, create_detach_account] at hB
              obtain ⟨g1, g2⟩ := exceptOk_pair_inj hB
              rw [← g1] at hacct
              rcases List.mem_singleton.mp hacct with rfl
              exact ⟨project, hmem, hid, rfl⟩
            | some key =>
              simp only [hK] at hB
              cases hC : clientProjectGet env.clientProjects project.url with
              | none =>
                simp only [hC] at hB
                cases hd : b.detachWhenDone with
                | true =>
                  simp only [hd, if_true] at hB
                  obtain ⟨g1, g2⟩ := exceptOk_pair_inj hB
                  rw [← g1] at hacct
                  cases hacct
                | false =>
                  simp only [hd, Bool.false_eq_true, if_false] at hB
                  cases hA : create_attach_account project key b env.clientVersion with
                  | none =>
                    simp only [hA] at hB
                    obtain ⟨g1, g2⟩ := exceptOk_pair_inj hB
                    rw [← g1] at hacct
                    cases hacct
                  | some acct0 =>
                    simp only [hA] at hB
                    obtain ⟨g1, g2⟩ := exceptOk_pair_inj hB
                    rw [← g1] at hacct
                    rcases List.mem_singleton.mp hacct with rfl
                    obtain ⟨hurl, -, -⟩ :=
                      create_attach_account_fields project key b env.clientVersion acct hA
                    exact ⟨project, hmem, hid, hurl⟩
              | some cp =>
                simp only [hC] at hB
                rw [ite_self] at hB
                cases hA : create_attach_account project key b env.clientVersion with
                | none =>
                  simp only [hA] at hB
                  obtain ⟨g1, g2⟩ := exceptOk_pair_inj hB
                  rw [← g1] at hacct
                  cases hacct
                | some acct0 =>
                  simp only [hA] at hB
                  obtain ⟨g1, g2⟩ := exceptOk_pair_inj hB
                  rw [← g1] at hacct
                  rcases List.mem_singleton.mp hacct with hacq
                  obtain ⟨hurl, -, -⟩ :=
                    create_attach_account_fields project key b env.clientVersion acct0 hA
                  refine ⟨project, hmem, hid, ?_⟩
                  subst hacq
                  split <;> simpa using hurl
        · obtain ⟨x, hx, hrest⟩ := ih rr.1 rr.2 hR acct hacct
          exact ⟨x, List.mem_cons_of_mem b hx, hrest⟩

/-! ## C1 — detach on disabled project -/

/-- C1: every attachment whose project is not in the enabled-project map
yields a detach directive for that project's URL and the attachment's
deletion, and the directive carries only the URL, the signed URL, an empty
authenticator and the detach flag — every other field is at its
`None`/empty default. -/
theorem c1_detach_on_disable (env : ReconcileEnv) (atts : List ProjectAttachment)
    (a : ProjectAttachment)
    (hwf : ∀ b ∈ atts, (ormProject env.projects b.projectId).isSome)
    (ha : a ∈ atts)
    (hdis : enabledProjectGet env.projects a.projectId = none) :
    ∃ accs dels p, process_projects env atts = .ok (accs, dels)
      ∧ ormProject env.projects a.projectId = some p
      ∧ a.id ∈ dels
      ∧ ∃ acct ∈ accs,
          acct.url = p.url ∧ acct.urlSignature = p.signedUrl ∧ acct.authenticator = ""
          ∧ acct.detach = some true ∧ acct.update = none ∧ acct.dontRequestMoreWork = none
          ∧ acct.detachWhenDone = none ∧ acct.suspend = none ∧ acct.noCpu = none
          ∧ acct.noCuda = none ∧ acct.noAti = none ∧ acct.noRsc = []
          ∧ acct.abortNotStarted = none ∧ acct.resourceShare = none := by
  obtain ⟨p, hp⟩ := Option.isSome_iff_exists.mp (hwf a ha)
  have hPA := processAttachment_disabled env a p hdis hp
  obtain ⟨⟨accs, dels⟩, hrun⟩ := process_projects_ok env atts hwf
  obtain ⟨hacc, hdel⟩ := process_projects_contrib env atts a accs dels _ _ ha hrun hPA
  refine ⟨accs, dels, p, hrun, hp, hdel a.id (by simp), ?_⟩
  exact ⟨⟨p.url, p.signedUrl, none, some true, none, none, none, none, none, none, [],
    none, "", none⟩, hacc _ (by simp), rfl, rfl, rfl, rfl, rfl, rfl, rfl, rfl, rfl, rfl,
    rfl, rfl, rfl, rfl⟩

/-- Witness for C1 at a concrete disabled project. -/
theorem c1_detach_on_disable_witness :
    (∀ b ∈ [attOne], (ormProject envDisabled.projects b.projectId).isSome)
    ∧ attOne ∈ [attOne]
    ∧ enabledProjectGet envDisabled.projects attOne.projectId = none
    ∧ (∃ accs dels p, process_projects envDisabled [attOne] = .ok (accs, dels)
        ∧ ormProject envDisabled.projects attOne.projectId = some p
        ∧ attOne.id ∈ dels
        ∧ ∃ acct ∈ accs,
            acct.url = p.url ∧ acct.urlSignature = p.signedUrl ∧ acct.authenticator = ""
            ∧ acct.detach = some true ∧ acct.update = none ∧ acct.dontRequestMoreWork = none
            ∧ acct.detachWhenDone = none ∧ acct.suspend = none ∧ acct.noCpu = none
            ∧ acct.noCuda = none ∧ acct.noAti = none ∧ acct.noRsc = []
            ∧ acct.abortNotStarted = none ∧ acct.resourceShare = none) :=
  ⟨by decide, by decide, by decide,
    c1_detach_on_disable envDisabled [attOne] attOne (by decide) (by decide) (by decide)⟩

/-! ## C2 — detach on missing key (fails for present-but-empty keys) -/

/-- C2 counterexample: with a key record that is present but holds the
empty string, reconciliation emits an attach directive (detach flag unset)
and deletes nothing, contradicting the claim that an empty key is handled
like an absent one. -/
theorem c2_counterexample :
    keyGet envEmptyKey.keys attOne.projectId = some ⟨1, ""⟩
    ∧ (⟨1, ""⟩ : UserProjectKey).accountKey = ""
    ∧ process_projects envEmptyKey [attOne] =
        .ok ([⟨"http://alpha.example/", "sig-alpha", none, none, some false, some false,
               some false, none, none, none, [], none, "", some 100⟩], [])
    ∧ (⟨"http://alpha.example/", "sig-alpha", none, none, some false, some false,
         some false, none, none, none, [], none, "", some 100⟩ : Account).detach ≠ some true := by
  refine ⟨by decide, rfl, by decide, by decide⟩

/-- C2 as amended: the detach-and-delete classification fires exactly on an
absent key record (`key_map.get` returning nothing); the directive is the
same bare detach as in C1. -/
theorem c2_detach_on_missing_key (env : ReconcileEnv) (atts : List ProjectAttachment)
    (a : ProjectAttachment) (p : Project)
    (hwf : ∀ b ∈ atts, (ormProject env.projects b.projectId).isSome)
    (ha : a ∈ atts)
    (hen : enabledProjectGet env.projects a.projectId = some p)
    (hk : keyGet env.keys p.id = none) :
    ∃ accs dels, process_projects env atts = .ok (accs, dels)
      ∧ a.id ∈ dels
      ∧ ∃ acct ∈ accs,
          acct.url = p.url ∧ acct.urlSignature = p.signedUrl ∧ acct.authenticator = ""
          ∧ acct.detach = some true ∧ acct.update = none ∧ acct.dontRequestMoreWork = none
          ∧ acct.detachWhenDone = none ∧ acct.suspend = none ∧ acct.noCpu = none
          ∧ acct.noCuda = none ∧ acct.noAti = none ∧ acct.noRsc = []
          ∧ acct.abortNotStarted = none ∧ acct.resourceShare = none := by
  have hPA := processAttachment_no_key env a p hen hk
  obtain ⟨⟨accs, dels⟩, hrun⟩ := process_projects_ok env atts hwf
  obtain ⟨hacc, hdel⟩ := process_projects_contrib env atts a accs dels _ _ ha hrun hPA
  refine ⟨accs, dels, hrun, hdel a.id (by simp), ?_⟩
  exact ⟨⟨p.url, p.signedUrl, none, some true, none, none, none, none, none, none, [],
    none, "", none⟩, hacc _ (by simp), rfl, rfl, rfl, rfl, rfl, rfl, rfl, rfl, rfl, rfl,
    rfl, rfl, rfl, rfl⟩

/-- Witness for the amended C2 at a concrete absent key. -/
theorem c2_detach_on_missing_key_witness :
    (∀ b ∈ [attOne], (ormProject envNoKey.projects b.projectId).isSome)
    ∧ attOne ∈ [attOne]
    ∧ enabledProjectGet envNoKey.projects attOne.projectId = some projAlpha
    ∧ keyGet envNoKey.keys projAlpha.id = none
    ∧ (∃ accs dels, process_projects envNoKey [attOne] = .ok (accs, dels)
        ∧ attOne.id ∈ dels
        ∧ ∃ acct ∈ accs,
            acct.url = projAlpha.url ∧ acct.urlSignature = projAlpha.signedUrl
            ∧ acct.authenticator = "" ∧ acct.detach = some true ∧ acct.update = none
            ∧ acct.dontRequestMoreWork = none ∧ acct.detachWhenDone = none
            ∧ acct.suspend = none ∧ acct.noCpu = none ∧ acct.noCuda = none
            ∧ acct.noAti = none ∧ acct.noRsc = [] ∧ acct.abortNotStarted = none
            ∧ acct.resourceShare = none) :=
  ⟨by decide, by decide, by decide, by decide,
    c2_detach_on_missing_key envNoKey [attOne] attOne projAlpha (by decide) (by decide)
      (by decide) (by decide)⟩

/-! ## C4 — a vanished project row aborts the whole run -/

/-- C4: at the concrete failing input (one healthy attachment followed by
one whose project row is gone) the engine aborts the entire computation
with an error — the healthy attachment's directive, which a run without
the inconsistent attachment does produce, is lost.  This contradicts the
claimed skip-that-project-only recovery. -/
theorem c4_vanished_project_aborts :
    process_projects envHealthy [attOne, attVanished] = .error "attachment.project row missing"
    ∧ process_projects envHealthy [attOne] =
        .ok ([⟨"http://alpha.example/", "sig-alpha", none, none, some false, some false,
               some false, none, none, none, [], none, "", some 100⟩], []) := by
  refine ⟨by decide, by decide⟩

/-! ## C3 — weak-key suppression -/

/-- C3: for an attached, enabled project whose key contains an underscore,
with the client version unparsed (`none`, the "oldest known" treatment) or
strictly below 6.13.0, the attachment contributes no directive at all, and
inserting it anywhere in the attachment list leaves the directive list of
the remaining projects unchanged and the run successful. -/
theorem c3_weak_key_suppression (env : ReconcileEnv) (x : ProjectAttachment)
    (p : Project) (k : UserProjectKey)
    (hen : enabledProjectGet env.projects x.projectId = some p)
    (hk : keyGet env.keys p.id = some k)
    (hweak : k.accountKey.data.contains '_' = true)
    (hver : env.clientVersion = none ∨
      ∃ v, env.clientVersion = some v ∧ Version.lt v ⟨6, 13, 0⟩ = true) :
    ∃ dx, processAttachment env x = .ok ([], dx)
      ∧ ∀ l1 l2 accs dels, process_projects env (l1 ++ l2) = .ok (accs, dels) →
          ∃ dels2, process_projects env (l1 ++ x :: l2) = .ok (accs, dels2) := by
  have hcaa : create_attach_account p k x env.clientVersion = none :=
    create_attach_account_weak_none p k x env.clientVersion hweak hver
  have hPA : ∃ dx, processAttachment env x = .ok ([], dx) := by
    cases hC : clientProjectGet env.clientProjects p.url with
    | none =>
      cases hd : x.detachWhenDone with
      | true => exact ⟨[x.id], by simp only [processAttachment, hen, hk, hC, hd, if_true]⟩
      | false =>
        exact ⟨[], by
          simp only [processAttachment, hen, hk, hC, hd, Bool.false_eq_true, if_false, hcaa]⟩
    | some cp =>
      cases hch : attachment_settings_changed k x cp with
      | true => exact ⟨[], by simp only [processAttachment, hen, hk, hC, hch, if_true, hcaa]⟩
      | false =>
        exact ⟨[], by
          simp only [processAttachment, hen, hk, hC, hch, Bool.false_eq_true, if_false, hcaa]⟩
  obtain ⟨dx, hdx⟩ := hPA
  refine ⟨dx, hdx, ?_⟩
  intro l1 l2 accs dels h
  rw [process_projects_append env l1 l2] at h
  cases hl1 : process_projects env l1 with
  | error e => simp only [hl1] at h; exact Except.noConfusion h
  | ok r1 =>
    simp only [hl1] at h
    cases hl2 : process_projects env l2 with
    | error e => simp only [hl2] at h; exact Except.noConfusion h
    | ok r2 =>
      simp only [hl2] at h
      obtain ⟨haccs, hdels⟩ : r1.1 ++ r2.1 = accs ∧ r1.2 ++ r2.2 = dels := by
        cases h; exact ⟨rfl, rfl⟩
      have hxl2 : process_projects env (x :: l2) = .ok ([] ++ r2.1, dx ++ r2.2) := by
        simp only [process_projects, hdx, hl2]
      refine ⟨r1.2 ++ (dx ++ r2.2), ?_⟩
      rw [process_projects_append env l1 (x :: l2), hl1, hxl2]
      simp [← haccs]

/-- Witness for C3: a weak key `"weak_key"` and a 6.12.9 client. -/
theorem c3_weak_key_suppression_witness :
    (enabledProjectGet envWeakOld.projects attOne.projectId = some projAlpha)
    ∧ (keyGet envWeakOld.keys projAlpha.id = some ⟨1, "weak_key"⟩)
    ∧ ((⟨1, "weak_key"⟩ : UserProjectKey).accountKey.data.contains '_' = true)
    ∧ (envWeakOld.clientVersion = some ⟨6, 12, 9⟩ ∧ Version.lt ⟨6, 12, 9⟩ ⟨6, 13, 0⟩ = true)
    ∧ (∃ dx, processAttachment envWeakOld attOne = .ok ([], dx)
        ∧ ∀ l1 l2 accs dels, process_projects envWeakOld (l1 ++ l2) = .ok (accs, dels) →
            ∃ dels2, process_projects envWeakOld (l1 ++ attOne :: l2) = .ok (accs, dels2)) :=
  ⟨by decide, by decide, by decide, ⟨by decide, by decide⟩,
    c3_weak_key_suppression envWeakOld attOne projAlpha ⟨1, "weak_key"⟩ (by decide) (by decide)
      (by decide) (Or.inr ⟨⟨6, 12, 9⟩, by decide, by decide⟩)⟩

/-! ## C9 — second-run behaviour -/

/-- C9 counterexample: with one attachment to a disabled project, the first
run emits a detach directive and deletes the attachment; the second run,
started from the state the first one left (the deleted attachment is
gone), emits an empty directive list — the two directive lists differ, so
reconciliation is not list-idempotent as claimed. -/
theorem c9_counterexample :
    process_projects envDisabled [attOne] =
      .ok ([⟨"http://alpha.example/", "sig-alpha", none, some true, none, none, none, none,
             none, none, [], none, "", none⟩], [attOne.id])
    ∧ process_projects envDisabled
        ([attOne].filter (fun b => decide (b.id ∉ [attOne.id]))) = .ok ([], [])
    ∧ ([⟨"http://alpha.example/", "sig-alpha", none, some true, none, none, none, none,
          none, none, [], none, "", none⟩] : List Account) ≠ [] :=
  ⟨by decide, by decide, by decide⟩

/-- C9 as amended: rerunning reconciliation on the attachments surviving
the first run deletes nothing further, and its directive list is the first
run's list with the detach directives (exactly those of the deleted
attachments) removed; in particular both lists coincide when the first run
deleted nothing. -/
theorem c9_second_run (env : ReconcileEnv) (atts : List ProjectAttachment)
    (accs1 : List Account) (dels1 : List Nat)
    (hwf : ∀ b ∈ atts, (ormProject env.projects b.projectId).isSome)
    (hnd : (atts.map (fun b => b.id)).Nodup)
    (h1 : process_projects env atts = .ok (accs1, dels1)) :
    process_projects env (atts.filter (fun b => decide (b.id ∉ dels1))) =
      .ok (accs1.filter (fun acct => acct.detach == none), []) := by
  induction atts generalizing accs1 dels1 with
  | nil =>
    have h1' : (Except.ok ([], []) : Except String (List Account × List Nat)) =
        .ok (accs1, dels1) := h1
    obtain ⟨ha, hd⟩ := exceptOk_pair_inj h1'
    subst ha hd
    rfl
  | cons b rest ih =>
    cases hB : processAttachment env b with
    | error e =>
      obtain ⟨r, hr⟩ := processAttachment_ok env b (hwf b (List.mem_cons_self b rest))
      rw [hB] at hr
      exact Except.noConfusion hr
    | ok rb =>
      cases hR : process_projects env rest with
      | error e =>
        obtain ⟨r, hr⟩ :=
          process_projects_ok env rest (fun x hx => hwf x (List.mem_cons_of_mem b hx))
        rw [hR] at hr
        exact Except.noConfusion hr
      | ok rr =>
        unfold process_projects at h1
        simp only [hB, hR] at h1
        obtain ⟨ha, hd⟩ := exceptOk_pair_inj h1
        subst ha hd
        obtain ⟨hdel01, hdelsNone, hdelsSome⟩ :=
          processAttachment_shape env b rb.1 rb.2 (by rw [hB])
        have hdsub := process_projects_dels env rest rr.1 rr.2 hR
        have hndb : b.id ∉ rest.map (fun x => x.id) :=
          (List.nodup_cons.mp (by simpa using hnd)).1
        have hndr : (rest.map (fun x => x.id)).Nodup :=
          (List.nodup_cons.mp (by simpa using hnd)).2
        have hbid_rr : b.id ∉ rr.2 := by
          intro hmem
          obtain ⟨x, hx, hxe⟩ := hdsub b.id hmem
          apply hndb
          rw [hxe]
          exact List.mem_map_of_mem _ hx
        have ihr := ih rr.1 rr.2 (fun x hx => hwf x (List.mem_cons_of_mem b hx)) hndr hR
        rcases hdel01 with hbE | hbI
        · -- b is not deleted: it survives and contributes the same accounts
          rw [hbE, List.nil_append]
          have hfil : List.filter (fun x => decide (x.id ∉ rr.2)) (b :: rest) =
              b :: List.filter (fun x => decide (x.id ∉ rr.2)) rest := by
            simp [List.filter_cons, hbid_rr]
          rw [hfil]
          have hstep : process_projects env
              (b :: rest.filter (fun x => decide (x.id ∉ rr.2))) =
              .ok (rb.1 ++ (rr.1.filter (fun acct => acct.detach == none)), rb.2 ++ []) := by
            unfold process_projects
            simp only [hB, ihr]
          rw [hstep, hbE]
          have haccs : (rb.1 ++ rr.1).filter (fun acct => acct.detach == none) =
              rb.1 ++ rr.1.filter (fun acct => acct.detach == none) := by
            rw [List.filter_append]
            congr 1
            refine List.filter_eq_self.mpr ?_
            intro acct hacct
            simp [hdelsNone hbE acct hacct]
          rw [haccs]
          rfl
        · -- b is deleted: it is filtered out and its accounts are detaches
          rw [hbI]
          have hfil : List.filter (fun x => decide (x.id ∉ [b.id] ++ rr.2)) (b :: rest) =
              rest.filter (fun x => decide (x.id ∉ [b.id] ++ rr.2)) := by
            simp [List.filter_cons]
          rw [hfil]
          have hfc : rest.filter (fun x => decide (x.id ∉ [b.id] ++ rr.2)) =
              rest.filter (fun x => decide (x.id ∉ rr.2)) := by
            refine List.filter_congr ?_
            intro x hx
            have hne : x.id ≠ b.id := by
              intro he
              apply hndb
              rw [← he]
              exact List.mem_map_of_mem _ hx
            rw [decide_eq_decide]
            simp [List.mem_cons, hne]
          rw [hfc, ihr]
          have haccs : (rb.1 ++ rr.1).filter (fun acct => acct.detach == none) =
              rr.1.filter (fun acct => acct.detach == none) := by
            rw [List.filter_append]
            rcases hdelsSome hbI with hnil | ⟨acct, hacct, hdet⟩
            · rw [hnil]; rfl
            · rw [hacct]
              simp [hdet]
          rw [haccs]

/-- Witness for the amended C9 at the disabled-project fixture. -/
theorem c9_second_run_witness :
    (∀ b ∈ [attOne], (ormProject envDisabled.projects b.projectId).isSome)
    ∧ ([attOne].map (fun b => b.id)).Nodup
    ∧ process_projects envDisabled [attOne] =
        .ok ([⟨"http://alpha.example/", "sig-alpha", none, some true, none, none, none, none,
               none, none, [], none, "", none⟩], [attOne.id])
    ∧ process_projects envDisabled ([attOne].filter (fun b => decide (b.id ∉ [attOne.id]))) =
        .ok (([⟨"http://alpha.example/", "sig-alpha", none, some true, none, none, none, none,
                none, none, [], none, "", none⟩] : List Account).filter
              (fun acct => acct.detach == none), []) :=
  ⟨by decide, by decide, by decide,
    c9_second_run envDisabled [attOne]
      [⟨"http://alpha.example/", "sig-alpha", none, some true, none, none, none, none,
         none, none, [], none, "", none⟩] [attOne.id]
      (by decide) (by decide) (by decide)⟩

/-! ## C10 — client-reported URLs without an attachment are ignored -/

/-- C10: a URL reported by the client for which no attachment of the
computer exists (no attached project id maps to a row with that URL)
receives no directive of either kind, and every deletion belongs to an
existing attachment (the source's loop over client-reported projects
builds a detach account it never appends, so only attachments contribute
to the reply). -/
theorem c10_unattached_url_no_directive (env : ReconcileEnv) (atts : List ProjectAttachment)
    (u : String) (accs : List Account) (dels : List Nat)
    (_hreported : ∃ xp ∈ env.clientProjects, xp.url = u)
    (hnoatt : ∀ p ∈ env.projects, p.url = u → ∀ b ∈ atts, b.projectId ≠ p.id)
    (h : process_projects env atts = .ok (accs, dels)) :
    (∀ acct ∈ accs, acct.url ≠ u) ∧ (∀ d ∈ dels, ∃ b ∈ atts, d = b.id) := by
  refine ⟨?_, process_projects_dels env atts accs dels h⟩
  intro acct hacct hurl
  obtain ⟨b, hb, p, hp, hid, hau⟩ := process_projects_url env atts accs dels h acct hacct
  have hpu : p.url = u := by rw [← hau]; exact hurl
  exact (hnoatt p hp hpu b hb) hid.symm

/-- Witness for C10: the client reports `http://gamma.example/`, which has
no attachment; the reply contains only the attach directive for the
attached project. -/
theorem c10_unattached_url_no_directive_witness :
    (∃ xp ∈ envExtraUrl.clientProjects, xp.url = "http://gamma.example/")
    ∧ (∀ p ∈ envExtraUrl.projects, p.url = "http://gamma.example/" →
        ∀ b ∈ [attOne], b.projectId ≠ p.id)
    ∧ process_projects envExtraUrl [attOne] =
        .ok ([⟨"http://alpha.example/", "sig-alpha", none, none, some false, some false,
               some false, none, none, none, [], none, "", some 100⟩], [])
    ∧ ((∀ acct ∈ [(⟨"http://alpha.example/", "sig-alpha", none, none, some false, some false,
          some false, none, none, none, [], none, "", some 100⟩ : Account)],
          acct.url ≠ "http://gamma.example/")
        ∧ (∀ d ∈ ([] : List Nat), ∃ b ∈ [attOne], d = b.id)) :=
  ⟨by decide, by decide, by decide,
    c10_unattached_url_no_directive envExtraUrl [attOne] "http://gamma.example/"
      [⟨"http://alpha.example/", "sig-alpha", none, none, some false, some false,
         some false, none, none, none, [], none, "", some 100⟩] []
      (by decide) (by decide) (by decide)⟩

/-! ## C8 — boolean reply-field serialization -/

/-- C8 counterexample: the engine produces reply accounts with boolean
fields that are present-and-false (here `suspend` from an unsuspended
attachment), and such a field serializes as the element containing `0` —
it is not omitted, contradicting the claim that false fields are omitted
entirely. -/
theorem c8_counterexample :
    (create_attach_account projAlpha ⟨1, "keyA"⟩ attOne (some ⟨7, 16, 3⟩)).map
        (fun acct => acct.suspend) = some (some false)
    ∧ renderOptBoolElement "suspend" (some false) = some "<suspend>0</suspend>"
    ∧ renderOptBoolElement "suspend" (some false) ≠ none :=
  ⟨by decide, by decide, by decide⟩

/-- C8 as amended: an optional boolean reply element contains `1` when the
field is true, contains `0` when it is false, and is omitted exactly when
the field is absent (`None`), per `BoolAsInt`'s serializer and the
`exclude_none=True` rendering. -/
theorem c8_bool_serialization (tag : String) :
    renderOptBoolElement tag (some true) = some ("<" ++ tag ++ ">" ++ "1" ++ "</" ++ tag ++ ">")
    ∧ renderOptBoolElement tag (some false) = some ("<" ++ tag ++ ">" ++ "0" ++ "</" ++ tag ++ ">")
    ∧ renderOptBoolElement tag none = none :=
  ⟨rfl, rfl, rfl⟩

/-! ## C7 — BOINC protocol password hash -/

/-- C7: the protocol hash is the lowercase-hex MD5 digest of
`password ++ lower(username)` (with MD5 and UTF-8 computed concretely),
it is a pure function of its inputs, and it is invariant under changes of
letter case in the username. -/
theorem c7_protocol_hash :
    (∀ username password : String,
        hash_boinc_password username password = md5HexOfString (password ++ pyLower username))
    ∧ (∀ u v password : String, pyLower u = pyLower v →
        hash_boinc_password u password = hash_boinc_password v password)
    ∧ hash_boinc_password "Alice" "secret" = hash_boinc_password "alice" "secret"
    ∧ hash_boinc_password "Alice" "secret" = "4a0a68b43b6cd5cf266fa02f196e2371" :=
  ⟨fun _ _ => rfl,
   fun u v password h => by unfold hash_boinc_password; rw [h],
   by decide, by decide⟩

/-- Witness for C7's case-invariance at "Alice"/"alice". -/
theorem c7_protocol_hash_witness :
    pyLower "Alice" = pyLower "alice"
    ∧ hash_boinc_password "Alice" "secret" = hash_boinc_password "alice" "secret" :=
  ⟨by decide, c7_protocol_hash.2.1 "Alice" "alice" "secret" (by decide)⟩

/-! ## Codec lemmas for the encryption wrapper -/

/-- Unicode scalar values are below `0x110000`. -/
theorem char_toNat_lt (c : Char) : c.toNat < 1114112 := by
  rcases c.valid with h | ⟨h1, h2⟩
  · exact Nat.lt_trans h (by norm_num)
  · exact h2

/-- The base64 alphabet character of a 6-bit group decodes to its index. -/
theorem b64CharIndex_b64Ch : ∀ i : Fin 64, b64CharIndex (b64Ch i.1) = some i.1 := by decide

/-- No alphabet character is the padding character. -/
theorem b64Ch_ne_pad : ∀ i : Fin 64, b64Ch i.1 ≠ '=' := by decide

/-- Base64 encoding of a nonempty byte string is nonempty. -/
theorem b64Encode_ne_nil (l : List Nat) (h : l ≠ []) : b64Encode l ≠ [] := by
  match l with
  | [] => exact absurd rfl h
  | [a] => simp [b64Encode]
  | [a, b] => simp [b64Encode]
  | a :: b :: c :: rest => simp [b64Encode]

/-- Base64 decoding inverts base64 encoding on byte strings. -/
theorem b64_roundtrip (l : List Nat) (h : ∀ x ∈ l, x < 256) :
    b64Decode (b64Encode l) = some l := by
  match l with
  | [] => rfl
  | [a] =>
    have ha : a < 256 := h a (by simp)
    have h1 : b64CharIndex (b64Ch (a / 4)) = some (a / 4) := b64CharIndex_b64Ch ⟨_, by omega⟩
    have h2 : b64CharIndex (b64Ch (a % 4 * 16)) = some (a % 4 * 16) :=
      b64CharIndex_b64Ch ⟨_, by omega⟩
    have e1 : a / 4 * 4 + a % 4 * 16 / 16 = a := by omega
    show b64Decode [b64Ch (a / 4), b64Ch (a % 4 * 16), '=', '='] = some [a]
    simp [b64Decode, h1, h2, e1]
    all_goals omega
  | [a, b] =>
    have ha : a < 256 := h a (by simp)
    have hb : b < 256 := h b (by simp)
    have h1 : b64CharIndex (b64Ch (a / 4)) = some (a / 4) := b64CharIndex_b64Ch ⟨_, by omega⟩
    have h2 : b64CharIndex (b64Ch (a % 4 * 16 + b / 16)) = some (a % 4 * 16 + b / 16) :=
      b64CharIndex_b64Ch ⟨_, by omega⟩
    have h3 : b64CharIndex (b64Ch (b % 16 * 4)) = some (b % 16 * 4) :=
      b64CharIndex_b64Ch ⟨_, by omega⟩
    have hne3 : b64Ch (b % 16 * 4) ≠ '=' := b64Ch_ne_pad ⟨_, by omega⟩
    have e1 : a / 4 * 4 + (a % 4 * 16 + b / 16) / 16 = a := by omega
    have e2 : (a % 4 * 16 + b / 16) % 16 * 16 + b % 16 * 4 / 4 = b := by omega
    show b64Decode [b64Ch (a / 4), b64Ch (a % 4 * 16 + b / 16), b64Ch (b % 16 * 4), '='] =
      some [a, b]
    simp [b64Decode, h1, h2, h3, hne3, e1, e2]
    all_goals omega
  | a :: b :: c :: rest' =>
    have ha : a < 256 := h a (by simp)
    have hb : b < 256 := h b (by simp)
    have hc : c < 256 := h c (by simp)
    have hrec := b64_roundtrip rest' (fun x hx =>
      h x (List.mem_cons_of_mem a (List.mem_cons_of_mem b (List.mem_cons_of_mem c hx))))
    have h1 : b64CharIndex (b64Ch (a / 4)) = some (a / 4) := b64CharIndex_b64Ch ⟨_, by omega⟩
    have h2 : b64CharIndex (b64Ch (a % 4 * 16 + b / 16)) = some (a % 4 * 16 + b / 16) :=
      b64CharIndex_b64Ch ⟨_, by omega⟩
    have h3 : b64CharIndex (b64Ch (b % 16 * 4 + c / 64)) = some (b % 16 * 4 + c / 64) :=
      b64CharIndex_b64Ch ⟨_, by omega⟩
    have h4 : b64CharIndex (b64Ch (c % 64)) = some (c % 64) := b64CharIndex_b64Ch ⟨_, by omega⟩
    have hne3 : b64Ch (b % 16 * 4 + c / 64) ≠ '=' := b64Ch_ne_pad ⟨_, by omega⟩
    have hne4 : b64Ch (c % 64) ≠ '=' := b64Ch_ne_pad ⟨_, by omega⟩
    have e1 : a / 4 * 4 + (a % 4 * 16 + b / 16) / 16 = a := by omega
    have e2 : (a % 4 * 16 + b / 16) % 16 * 16 + (b % 16 * 4 + c / 64) / 4 = b := by omega
    have e3 : (b % 16 * 4 + c / 64) % 4 * 64 + c % 64 = c := by omega
    show b64Decode (b64Ch (a / 4) :: b64Ch (a % 4 * 16 + b / 16) ::
      b64Ch (b % 16 * 4 + c / 64) :: b64Ch (c % 64) :: b64Encode rest') =
      some (a :: b :: c :: rest')
    simp [b64Decode, h1, h2, h3, h4, hne3, hne4, hrec, e1, e2, e3]

/-- Every byte the UTF-8 encoder emits for one character is below 256. -/
theorem utf8EncodeChar_lt_256 (c : Char) : ∀ x ∈ utf8EncodeChar c, x < 256 := by
  have hv := char_toNat_lt c
  unfold utf8EncodeChar
  dsimp only
  split
  · intro x hx; simp at hx; omega
  · split
    · intro x hx; simp at hx; omega
    · split
      · intro x hx; simp at hx; omega
      · intro x hx; simp at hx; omega

/-- Every byte of a UTF-8 encoded string is below 256. -/
theorem utf8Encode_lt_256 (s : String) : ∀ x ∈ utf8Encode s, x < 256 := by
  unfold utf8Encode
  generalize s.data = cs
  induction cs with
  | nil => simp
  | cons c cs ih =>
    intro x hx
    simp only [List.foldr] at hx
    rcases List.mem_append.mp hx with hx | hx
    · exact utf8EncodeChar_lt_256 c x hx
    · exact ih x hx

/-- One character encodes to at least one byte. -/
theorem utf8EncodeChar_length_pos (c : Char) : 1 ≤ (utf8EncodeChar c).length := by
  unfold utf8EncodeChar
  dsimp only
  split
  · simp
  · split
    · simp
    · split <;> simp

/-- A character list is no longer than its UTF-8 encoding. -/
theorem utf8Encode_length_ge (cs : List Char) :
    cs.length ≤ (cs.foldr (fun c acc => utf8EncodeChar c ++ acc) []).length := by
  induction cs with
  | nil => simp
  | cons c cs ih =>
    simp only [List.foldr, List.length_append, List.length_cons]
    have := utf8EncodeChar_length_pos c
    omega

/-- The fueled UTF-8 decoder inverts the encoder, given fuel for at least
one step per character. -/
theorem utf8DecodeAux_foldr (cs : List Char) : ∀ fuel : Nat, cs.length ≤ fuel →
    utf8DecodeAux fuel (cs.foldr (fun c acc => utf8EncodeChar c ++ acc) []) = some cs := by
  induction cs with
  | nil => intro fuel _; cases fuel <;> rfl
  | cons c cs ih =>
    intro fuel hf
    cases fuel with
    | zero => simp at hf
    | succ f =>
      have hlen : cs.length ≤ f := by simp at hf; omega
      have hE := ih f hlen
      have hv := char_toNat_lt c
      have hn := Char.ofNat_toNat c
      simp only [List.foldr]
      by_cases h1 : c.toNat < 128
      · have henc : utf8EncodeChar c = [c.toNat] := by simp [utf8EncodeChar, h1]
        rw [henc, List.singleton_append]
        simp only [utf8DecodeAux, if_pos h1, hE, Option.map_some', hn]
      · by_cases h2 : c.toNat < 2048
        · have henc : utf8EncodeChar c = [192 + c.toNat / 64, 128 + c.toNat % 64] := by
            simp [utf8EncodeChar, h1, h2]
          rw [henc]
          have c1 : ¬(192 + c.toNat / 64 < 128) := by omega
          have c2 : ¬(192 + c.toNat / 64 < 192) := by omega
          have c3 : 192 + c.toNat / 64 < 224 := by omega
          have c4 : 128 ≤ 128 + c.toNat % 64 := by omega
          have c5 : 128 + c.toNat % 64 < 192 := by omega
          have harith : (192 + c.toNat / 64 - 192) * 64 + (128 + c.toNat % 64 - 128) =
              c.toNat := by omega
          have harith2 : c.toNat / 64 * 64 + c.toNat % 64 = c.toNat := by omega
          simp only [List.cons_append, List.nil_append, utf8DecodeAux]
          simp [c1, c2, c3, c4, c5, harith, harith2, hE, hn]
        · by_cases h3 : c.toNat < 65536
          · have henc : utf8EncodeChar c =
                [224 + c.toNat / 4096, 128 + c.toNat / 64 % 64, 128 + c.toNat % 64] := by
              simp [utf8EncodeChar, h1, h2, h3]
            rw [henc]
            have c1 : ¬(224 + c.toNat / 4096 < 128) := by omega
            have c2 : ¬(224 + c.toNat / 4096 < 192) := by omega
            have c3 : ¬(224 + c.toNat / 4096 < 224) := by omega
            have c4 : 224 + c.toNat / 4096 < 240 := by omega
            have harith : (224 + c.toNat / 4096 - 224) * 4096 +
                (128 + c.toNat / 64 % 64 - 128) * 64 + (128 + c.toNat % 64 - 128) =
                c.toNat := by omega
            have c5 : 128 + c.toNat / 64 % 64 < 192 := by omega
            have c6 : 128 + c.toNat % 64 < 192 := by omega
            have harith2 : c.toNat / 4096 * 4096 + c.toNat / 64 % 64 * 64 + c.toNat % 64 =
                c.toNat := by omega
            simp only [List.cons_append, List.nil_append, utf8DecodeAux]
            simp [c1, c2, c3, c4, c5, c6, harith, harith2, hE, hn]
          · have henc : utf8EncodeChar c =
                [240 + c.toNat / 262144, 128 + c.toNat / 4096 % 64, 128 + c.toNat / 64 % 64,
                 128 + c.toNat % 64] := by
              simp [utf8EncodeChar, h1, h2, h3]
            rw [henc]
            have c1 : ¬(240 + c.toNat / 262144 < 128) := by omega
            have c2 : ¬(240 + c.toNat / 262144 < 192) := by omega
            have c3 : ¬(240 + c.toNat / 262144 < 224) := by omega
            have c4 : ¬(240 + c.toNat / 262144 < 240) := by omega
            have c5 : 240 + c.toNat / 262144 < 248 := by omega
            have harith : (240 + c.toNat / 262144 - 240) * 262144 +
                (128 + c.toNat / 4096 % 64 - 128) * 4096 +
                (128 + c.toNat / 64 % 64 - 128) * 64 + (128 + c.toNat % 64 - 128) =
                c.toNat := by omega
            have c6 : 128 + c.toNat / 4096 % 64 < 192 := by omega
            have c7 : 128 + c.toNat / 64 % 64 < 192 := by omega
            have c8 : 128 + c.toNat % 64 < 192 := by omega
            have harith2 : c.toNat / 262144 * 262144 + c.toNat / 4096 % 64 * 4096 +
                c.toNat / 64 % 64 * 64 + c.toNat % 64 = c.toNat := by omega
            simp only [List.cons_append, List.nil_append, utf8DecodeAux]
            simp [c1, c2, c3, c4, c5, c6, c7, c8, harith, harith2, hE, hn]

/-- UTF-8 decoding inverts UTF-8 encoding. -/
theorem utf8_roundtrip (s : String) : utf8Decode (utf8Encode s) = some s.data := by
  unfold utf8Decode utf8Encode
  exact utf8DecodeAux_foldr s.data _ (utf8Encode_length_ge s.data)

/-! ## C5 — encryption round trip -/

/-- C5: for any Fernet primitive that inverts itself on byte strings,
produces byte-valued nonempty tokens, the stored-key wrapper round-trips
every non-empty plaintext key, and both wrapper directions map the empty
string to itself. -/
theorem c5_encryption_roundtrip (F : FernetLike)
    (hrt : ∀ m, F.decrypt (F.encrypt m) = some m)
    (hbytes : ∀ m, (∀ x ∈ m, x < 256) → ∀ x ∈ F.encrypt m, x < 256)
    (hne : ∀ m, F.encrypt m ≠ []) :
    (∀ k : String, k ≠ "" → decrypt_account_key F (encrypt_account_key F k) = k)
    ∧ encrypt_account_key F "" = "" ∧ decrypt_account_key F "" = "" := by
  refine ⟨?_, rfl, rfl⟩
  intro k hk
  have henc : encrypt_account_key F k = String.mk (b64Encode (F.encrypt (utf8Encode k))) := by
    unfold encrypt_account_key
    rw [if_neg hk]
  rw [henc]
  have hml : String.mk (b64Encode (F.encrypt (utf8Encode k))) ≠ "" := by
    intro hcon
    apply b64Encode_ne_nil (F.encrypt (utf8Encode k)) (hne _)
    simpa using congrArg String.data hcon
  have h1 : b64Decode (String.mk (b64Encode (F.encrypt (utf8Encode k)))).data =
      some (F.encrypt (utf8Encode k)) := by
    show b64Decode (b64Encode (F.encrypt (utf8Encode k))) = _
    exact b64_roundtrip _ (hbytes _ (utf8Encode_lt_256 k))
  unfold decrypt_account_key
  rw [if_neg hml]
  simp only [h1, hrt, utf8_roundtrip]

/-- Witness for C5, using the concrete marker-byte Fernet instance. -/
theorem c5_encryption_roundtrip_witness :
    decrypt_account_key fernetSample (encrypt_account_key fernetSample "demo-key") = "demo-key"
    ∧ encrypt_account_key fernetSample "" = ""
    ∧ decrypt_account_key fernetSample "" = "" :=
  ⟨(c5_encryption_roundtrip fernetSample (fun _ => rfl)
      (fun m hm x hx => by
        rcases List.mem_cons.mp hx with rfl | hx
        · decide
        · exact hm x hx)
      (fun m => List.cons_ne_nil 0 m)).1 "demo-key" (by decide),
   rfl, rfl⟩

/-! ## C6 — decryption fails closed -/

/-- C6: any input on which the decryption chain (base64 decode, Fernet
decrypt, UTF-8 decode) fails is mapped to the empty string; the wrapper is
a total function, so no exception reaches the caller. -/
theorem c6_decrypt_fail_closed (F : FernetLike) (c : String)
    (h : decryptChain F c = none) :
    decrypt_account_key F c = "" := by
  unfold decrypt_account_key
  split
  · rfl
  · unfold decryptChain at h
    cases hb : b64Decode c.data with
    | none => simp only [hb]
    | some eb =>
      simp only [hb, Option.some_bind] at h
      cases hd : F.decrypt eb with
      | none => simp only [hb, hd]
      | some pt =>
        simp only [hd, Option.some_bind] at h
        cases hu : utf8Decode pt with
        | none => simp only [hb, hd, hu]
        | some cs => simp [hu] at h

/-- Witness for C6 at an input that is not valid base64 (under the
reject-all foreign-key Fernet instance). -/
theorem c6_decrypt_fail_closed_witness :
    decryptChain fernetRejectAll "not-valid-b64!" = none
    ∧ decrypt_account_key fernetRejectAll "not-valid-b64!" = "" :=
  ⟨by decide, c6_decrypt_fail_closed fernetRejectAll "not-valid-b64!" (by decide)⟩

end BoincHub
